import Mathlib

/-!
# zipstrip: locating the end of ZIP data

A shallow embedding of `ziplen.go` (`findZipSignature`, `zipLength`) and of the
truncate action of `main.go` (`doTruncateZip`), followed by the properties of the
locator.

Modelling conventions.

* A byte source is a regular file with fixed contents, `List UInt8`.  Seeking to the
  end yields its length; an absolute seek fails only for a negative offset;
  `io.ReadFull` fails only by running past the end of the contents.
* Go's `int64` / `int` values are integers, and every arithmetic operation of the
  source that can leave the 64-bit range is wrapped by `wrap64`.
* `make([]byte, readSz)` panics on a negative length; the cost of an allocation is not
  modelled.
* A run of `zipLength` records the reads it issues, in order.
* The general theorems take the search bound in the `int64` range (`0 ≤ sb < 2^63`) and
  the file below `2^61` bytes, which keeps `targetSz * 2` and the returned sum inside
  `int64`.
-/

namespace ZipStrip

/-- A byte of the file. -/
abbrev Byte := UInt8

/-- Two's-complement wrap of an integer into the `int64` range. -/
def wrap64 (x : Int) : Int := (x + 2 ^ 63) % 2 ^ 64 - 2 ^ 63

/-- The test `b[p] == 'P' && b[p+1] == 'K' && b[p+2] == 0x05 && b[p+3] == 0x06`. -/
def sigAt (b : List Byte) (p : Nat) : Prop :=
  b[p]? = some 0x50 ∧ b[p + 1]? = some 0x4B ∧ b[p + 2]? = some 0x05 ∧ b[p + 3]? = some 0x06

instance (b : List Byte) (p : Nat) : Decidable (sigAt b p) := by
  unfold sigAt; infer_instance

/-- The `for i := 0; i < len(b)-4; i++` loop of `findZipSignature`, entered at index `i`.
The first argument bounds the number of passes; `len(b)` passes always reach the exit test. -/
def findZipSignatureLoop (b : List Byte) : Nat → Nat → Int × Bool
  | 0, _ => (-1, false)
  | fuel + 1, i =>
    if (i : Int) < (b.length : Int) - 4 then
      if sigAt b i then ((i : Int), true)
      else findZipSignatureLoop b fuel (i + 1)
    else (-1, false)

/-- `findZipSignature` of `ziplen.go`. -/
def findZipSignature (b : List Byte) : Int × Bool :=
  findZipSignatureLoop b b.length 0

/-- Errors of seeking and reading a regular file. -/
inductive IOError
  | seekNegative
  | eof
  | unexpectedEOF
  | fileExists
  | invalidArgument
  deriving DecidableEq, Repr

/-- `io.ReadFull` of `len` bytes after an absolute seek to `pos` (`0 ≤ pos`). -/
def readFull (file : List Byte) (pos len : Int) : Except IOError (List Byte) :=
  let avail := file.drop pos.toNat
  if len ≤ (avail.length : Int) then .ok (avail.take len.toNat)
  else if avail.length = 0 then .error .eof
  else .error .unexpectedEOF

/-- One read issued against the byte source: the seek offset and the buffer length. -/
structure ReadOp where
  off : Int
  len : Int
  deriving DecidableEq, Repr

/-- How the search loop of `zipLength` is left. -/
inductive Search
  | found (offset eocd : Int)
  | notFound
  | failed (e : IOError)
  | makeslicePanic
  deriving DecidableEq, Repr

/-- How one pass through the body of the search loop ends: by going round again with
new values of `offset` and `targetSz`, or by leaving the loop (`break` or `return`). -/
inductive Pass
  | next (rd : ReadOp) (offset targetSz : Int)
  | exit (reads : List ReadOp) (res : Search)
  deriving DecidableEq, Repr

/-- Body of the `for offset > 0` loop of `zipLength` (lines 47-77). -/
def searchPass (file : List Byte) (fileSz maxTruncate offset targetSz : Int) : Pass :=
  let newOffset := wrap64 (fileSz - targetSz)
  let newOffset := if newOffset < 0 then 0 else newOffset
  let readSz := wrap64 (wrap64 (offset - newOffset) + 4)
  let offset := newOffset
  let readSz := if wrap64 (offset + readSz) > fileSz then wrap64 (fileSz - offset) else readSz
  if readSz < 0 then .exit [] .makeslicePanic
  else if offset < 0 then .exit [] (.failed .seekNegative)
  else
    match readFull file offset readSz with
    | .error e => .exit [⟨offset, readSz⟩] (.failed e)
    | .ok buf =>
      if (findZipSignature buf).2 then
        .exit [⟨offset, readSz⟩] (.found offset (findZipSignature buf).1)
      else if targetSz = maxTruncate then .exit [⟨offset, readSz⟩] .notFound
      else
        let targetSz := wrap64 (targetSz * 2)
        let targetSz := if targetSz > maxTruncate then maxTruncate else targetSz
        .next ⟨offset, readSz⟩ offset targetSz

/-- The `for offset > 0` loop of `zipLength`, entered with the given `offset` and `targetSz`.
The result is the list of reads issued and the way the loop is left; `none` when the
pass budget (first argument) is used up. -/
def searchLoop (file : List Byte) (fileSz maxTruncate : Int) :
    Nat → Int → Int → Option (List ReadOp × Search)
  | 0, _, _ => none
  | fuel + 1, offset, targetSz =>
    if offset > 0 then
      match searchPass file fileSz maxTruncate offset targetSz with
      | .exit reads res => some (reads, res)
      | .next rd offset targetSz =>
        match searchLoop file fileSz maxTruncate fuel offset targetSz with
        | none => none
        | some (reads, res) => some (rd :: reads, res)
    else some ([], .notFound)

/-- Result of a call of `zipLength`: the returned size, one of the two kinds of error,
or the runtime panic of `make([]byte, readSz)` on a negative length. -/
inductive Outcome
  | ok (sz : Int)
  | errNoZIP
  | ioErr (e : IOError)
  | makeslicePanic
  deriving DecidableEq, Repr

/-- A finished call: the reads issued, in order, and the result. -/
structure Run where
  reads : List ReadOp
  out : Outcome
  deriving DecidableEq, Repr

/-- Length of a ZIP end-of-central-directory entry. -/
def lenEOCD : Int := 0x16

/-- The comment length `int(buf[lenEOCD-1])<<8 | int(buf[lenEOCD-2])` of a 22-byte record. -/
def lenComment (buf : List Byte) : Int :=
  (((buf.getD 21 0).toNat <<< 8 ||| (buf.getD 20 0).toNat : Nat) : Int)

/-- First half of `zipLength` (lines 28-78): file size, search range, and the search loop.
The loop is given `len(file) + 1` passes. -/
def zipSearch (file : List Byte) (maxTruncate : Int) : Option (List ReadOp × Search) :=
  let fileSz : Int := file.length
  let maxTruncate := wrap64 (maxTruncate + lenEOCD)
  let offset := fileSz
  let targetSz : Int := if 0x40 > maxTruncate then maxTruncate else 0x40
  searchLoop file fileSz maxTruncate (file.length + 1) offset targetSz

/-- `zipLength` of `ziplen.go` on a file with the given contents. -/
def zipLength (file : List Byte) (maxTruncate : Int) : Option Run :=
  match zipSearch file maxTruncate with
  | none => none
  | some (reads, .makeslicePanic) => some ⟨reads, .makeslicePanic⟩
  | some (reads, .failed e) => some ⟨reads, .ioErr e⟩
  | some (reads, .notFound) => some ⟨reads, .errNoZIP⟩
  | some (reads, .found offset eocd) =>
    let pos := wrap64 (offset + eocd)
    if pos < 0 then some ⟨reads, .ioErr .seekNegative⟩
    else
      match readFull file pos lenEOCD with
      | .error e => some ⟨reads ++ [⟨pos, lenEOCD⟩], .ioErr e⟩
      | .ok buf =>
        some ⟨reads ++ [⟨pos, lenEOCD⟩],
          .ok (wrap64 (offset + wrap64 (eocd + lenEOCD + lenComment buf)))⟩

/-- The two files `doTruncateZip` touches: the archive and its backup (if it exists). -/
structure Disk where
  file : List Byte
  backup : Option (List Byte)
  deriving DecidableEq, Repr

/-- How an action ends: with `err == nil`, or with an error/panic; in both cases the
state the files are left in. -/
inductive Action
  | done (d : Disk)
  | failed (e : Outcome) (d : Disk)
  deriving DecidableEq, Repr

/-- `os.Truncate(filename, zipSz)` on a regular file: cut, or extend with zero bytes. -/
def osTruncate (file : List Byte) (zipSz : Int) : List Byte :=
  file.take zipSz.toNat ++ List.replicate (zipSz.toNat - file.length) 0

/-- `doTruncateZip` of `main.go`, with the globals `force`, `nobackup`, `maxTruncate`
as arguments.  `copyFileN(filename, backupFile, -1)` fails when the backup exists and
`force` is off (`O_EXCL`), and otherwise writes a full copy. -/
def doTruncateZip (force nobackup : Bool) (maxTruncate : Int) (d : Disk) : Option Action :=
  match zipLength d.file maxTruncate with
  | none => none
  | some ⟨_, .ok zipSz⟩ =>
    let fileSz : Int := d.file.length
    if fileSz = zipSz ∧ ¬ force then some (.done d)
    else
      let afterBackup : Except IOError Disk :=
        if ¬ nobackup then
          if d.backup.isSome ∧ ¬ force then .error .fileExists
          else .ok { d with backup := some d.file }
        else .ok d
      match afterBackup with
      | .error e => some (.failed (.ioErr e) d)
      | .ok d1 =>
        if fileSz = zipSz then some (.done d1)
        else if zipSz < 0 then some (.failed (.ioErr .invalidArgument) d1)
        else some (.done { d1 with file := osTruncate d1.file zipSz })
  | some ⟨_, e⟩ => some (.failed e d)

/-- The comment length stored at bytes `s+20`, `s+21` of the file, little-endian. -/
def commentLenAt (file : List Byte) (s : Nat) : Nat :=
  (file.getD (s + 20) 0).toNat + 256 * (file.getD (s + 21) 0).toNat

/-- Lowest file offset the search may look at: `max(0, fileSize - (searchBound + 22))`. -/
def searchFloor (file : List Byte) (searchBound : Int) : Int :=
  max 0 ((file.length : Int) - (searchBound + 22))

/-! ## Concrete inputs used below -/

/-- A bare 22-byte end-of-central-directory record with the given comment-length bytes. -/
def eocdRecord (lo hi : Byte) : List Byte :=
  [0x50, 0x4B, 0x05, 0x06, 0, 0, 0, 0, 0, 0, 0, 0, 0, 0, 0, 0, 0, 0, 0, 0, lo, hi]

/-- A record announcing a one-byte comment, followed by that byte (23 bytes). -/
def archiveWithComment : List Byte := eocdRecord 1 0 ++ [0x41]

/-- A stray signature, then a record without comment, then four garbage bytes (30 bytes). -/
def strayThenRecord : List Byte := [0x50, 0x4B, 0x05, 0x06] ++ eocdRecord 0 0 ++ [1, 1, 1, 1]

/-- A stray signature, 100 zero bytes, a record without comment, four garbage bytes
(130 bytes); the stray signature lies outside every search range of bound 4. -/
def farStrayThenRecord : List Byte :=
  [0x50, 0x4B, 0x05, 0x06] ++ List.replicate 100 0 ++ eocdRecord 0 0 ++ [1, 1, 1, 1]

/-- A signature followed by a single byte (5 bytes). -/
def cutRecord : List Byte := [0x50, 0x4B, 0x05, 0x06, 0]

/-- An 86-byte file whose signature, at offset 20, straddles the edge of the first
64-byte window (which starts at offset 22). -/
def straddling : List Byte :=
  List.replicate 20 0 ++ eocdRecord 0 0 ++ List.replicate 44 0

/-- What a finished search guarantees, `lo` being the lowest offset it may look at:
every read starts at or after `lo`; a miss means no signature stands at an offset `p ≥ lo`
with `p + 4 < len(file)`; a hit `found off e` comes from the last read `(off, len)` of the run,
lies inside the file with `e + 4 < len`, and is the leftmost signature of that buffer. -/
def SearchPost (file : List Byte) (lo : Int) (reads : List ReadOp) (res : Search) : Prop :=
  (∀ r ∈ reads, lo ≤ r.off) ∧
  ((res = .notFound ∧ ∀ p : Nat, lo ≤ (p : Int) → p + 4 < file.length → ¬ sigAt file p) ∨
   (∃ off len e : Nat, res = .found (off : Int) (e : Int) ∧
      (∃ pre, reads = pre ++ [(⟨off, len⟩ : ReadOp)]) ∧
      lo ≤ (off : Int) ∧ off + len ≤ file.length ∧ e + 4 < len ∧ sigAt file (off + e) ∧
      ∀ p : Nat, off ≤ p → p < off + e → ¬ sigAt file p))

/-- What a finished call of `zipLength` guarantees, outside the panic case: every read
starts at or after the search floor; `ErrNoZIP` means no signature stands at an offset
`p` at or after the floor with `p + 4 < len(file)`; otherwise a signature was matched at
an offset `s`, leftmost in the buffer `(off, len)` of the last window read, the record
read at `s` follows, and the result is
a short-read error when fewer than 22 bytes follow `s`, else `s + 22 + commentLength`. -/
def LocatePost (file : List Byte) (searchBound : Int) (run : Run) : Prop :=
  (∀ r ∈ run.reads, searchFloor file searchBound ≤ r.off) ∧
  ((run.out = .errNoZIP ∧ ∀ p : Nat, searchFloor file searchBound ≤ (p : Int) →
      p + 4 < file.length → ¬ sigAt file p) ∨
   (∃ off len s : Nat,
      (∃ pre, run.reads = pre ++ [(⟨off, len⟩ : ReadOp), ⟨(s : Int), lenEOCD⟩]) ∧
      searchFloor file searchBound ≤ (off : Int) ∧ off ≤ s ∧ s + 4 < off + len ∧
      off + len ≤ file.length ∧ sigAt file s ∧ (∀ p : Nat, off ≤ p → p < s → ¬ sigAt file p) ∧
      ((file.length < s + 22 ∧ run.out = .ioErr .unexpectedEOF) ∨
       (s + 22 ≤ file.length ∧ run.out = .ok ((s + 22 + commentLenAt file s : Nat) : Int)))))

/-! ## The signature scanner -/

theorem findZipSignatureLoop_spec (b : List Byte) :
    ∀ (fuel i : Nat), b.length ≤ fuel + i →
      (∃ j : Nat, findZipSignatureLoop b fuel i = ((j : Int), true) ∧ i ≤ j ∧ j + 4 < b.length ∧
          sigAt b j ∧ ∀ k, i ≤ k → k < j → ¬ sigAt b k) ∨
      (findZipSignatureLoop b fuel i = (-1, false) ∧
          ∀ k, i ≤ k → k + 4 < b.length → ¬ sigAt b k) := by
  intro fuel
  induction fuel with
  | zero =>
    intro i hi
    right
    refine ⟨rfl, fun k hk hk4 => ?_⟩
    omega
  | succ fuel ih =>
    intro i hi
    unfold findZipSignatureLoop
    by_cases hlt : (i : Int) < (b.length : Int) - 4
    · rw [if_pos hlt]
      by_cases hs : sigAt b i
      · left
        refine ⟨i, ?_, le_refl _, by omega, hs, fun k h1 h2 => by omega⟩
        rw [if_pos hs]
      · rw [if_neg hs]
        rcases ih (i + 1) (by omega) with ⟨j, hj, hij, hjl, hsj, hmin⟩ | ⟨hnf, hno⟩
        · left
          refine ⟨j, hj, by omega, hjl, hsj, fun k h1 h2 => ?_⟩
          by_cases hki : k = i
          · subst hki; exact hs
          · exact hmin k (by omega) h2
        · right
          refine ⟨hnf, fun k h1 h2 => ?_⟩
          by_cases hki : k = i
          · subst hki; exact hs
          · exact hno k (by omega) h2
    · rw [if_neg hlt]
      right
      refine ⟨rfl, fun k hk hk4 => ?_⟩
      omega

/-- What `findZipSignature` computes: the lowest index `j` with `j + 4 < len(b)` at which
the signature stands, or not-found when there is none. -/
theorem findZipSignature_spec (b : List Byte) :
    (∃ j : Nat, findZipSignature b = ((j : Int), true) ∧ j + 4 < b.length ∧
        sigAt b j ∧ ∀ k, k < j → ¬ sigAt b k) ∨
    (findZipSignature b = (-1, false) ∧ ∀ k, k + 4 < b.length → ¬ sigAt b k) := by
  rcases findZipSignatureLoop_spec b b.length 0 (by omega) with
    ⟨j, hj, _, hjl, hsj, hmin⟩ | ⟨hnf, hno⟩
  · exact Or.inl ⟨j, hj, hjl, hsj, fun k hk => hmin k (Nat.zero_le _) hk⟩
  · exact Or.inr ⟨hnf, fun k hk => hno k (Nat.zero_le _) hk⟩

/-! ## Arithmetic and reads -/

theorem wrap64_eq (x : Int) (h1 : -2 ^ 63 ≤ x) (h2 : x < 2 ^ 63) : wrap64 x = x := by
  unfold wrap64
  omega

theorem readFull_ok (file : List Byte) (pos len : Nat) (h : pos + len ≤ file.length) :
    readFull file (pos : Int) (len : Int) = .ok ((file.drop pos).take len) := by
  unfold readFull
  simp only [Int.toNat_ofNat, List.length_drop]
  rw [if_pos (by omega)]

theorem readFull_short (file : List Byte) (pos len : Nat) (h1 : pos < file.length)
    (h2 : file.length < pos + len) :
    readFull file (pos : Int) (len : Int) = .error .unexpectedEOF := by
  unfold readFull
  simp only [Int.toNat_ofNat, List.length_drop]
  rw [if_neg (by omega), if_neg (by omega)]

theorem getElem?_window (file : List Byte) (o l j : Nat) (h : j < l) :
    ((file.drop o).take l)[j]? = file[o + j]? := by
  rw [List.getElem?_take_of_lt h, List.getElem?_drop]

theorem sigAt_window (file : List Byte) (o l j : Nat) (h : j + 4 ≤ l) :
    sigAt ((file.drop o).take l) j ↔ sigAt file (o + j) := by
  unfold sigAt
  rw [getElem?_window file o l j (by omega), getElem?_window file o l (j + 1) (by omega),
    getElem?_window file o l (j + 2) (by omega), getElem?_window file o l (j + 3) (by omega)]
  simp only [Nat.add_assoc]

theorem sigAt_lt_length (file : List Byte) (p : Nat) (h : sigAt file p) : p + 4 ≤ file.length := by
  by_contra hlt
  have h3 := h.2.2.2
  rw [List.getElem?_eq_none (by omega)] at h3
  exact absurd h3 (by simp)

theorem sigAt_take (file : List Byte) (z p : Nat) (h : p + 4 ≤ z) :
    sigAt (file.take z) p ↔ sigAt file p := by
  unfold sigAt
  rw [List.getElem?_take_of_lt (by omega), List.getElem?_take_of_lt (by omega),
    List.getElem?_take_of_lt (by omega), List.getElem?_take_of_lt (by omega)]

theorem lenComment_window (file : List Byte) (s : Nat) :
    lenComment ((file.drop s).take 22) = (commentLenAt file s : Int) := by
  unfold lenComment commentLenAt
  simp only [List.getD_eq_getElem?_getD]
  rw [getElem?_window file s 22 21 (by omega), getElem?_window file s 22 20 (by omega)]
  have hlo := UInt8.toNat_lt (file[s + 20]?.getD 0)
  have hor := Nat.mul_add_lt_is_or hlo (file[s + 21]?.getD 0).toNat
  rw [Nat.shiftLeft_eq]
  have hc : (file[s + 21]?.getD 0).toNat * 2 ^ 8 = 2 ^ 8 * (file[s + 21]?.getD 0).toNat :=
    Nat.mul_comm _ _
  rw [hc, ← hor]
  push_cast
  ring

theorem commentLenAt_le (file : List Byte) (s : Nat) : commentLenAt file s ≤ 65535 := by
  unfold commentLenAt
  have h1 := UInt8.toNat_lt (file.getD (s + 20) 0)
  have h2 := UInt8.toNat_lt (file.getD (s + 21) 0)
  omega

/-! ## The search loop -/

/-- One pass of the loop in the regime without overflow: the values the pass computes. -/
theorem searchPass_normal (file : List Byte) (M : Int) (o t : Int)
    (hn : (file.length : Int) < 2 ^ 61) (hM2 : M < 2 ^ 63)
    (ho : 0 < o) (hon : o ≤ file.length) (ht : 22 ≤ t) (htM : t ≤ M)
    (hto : (file.length : Int) - t < o) :
    ∃ no rs : Nat, (no : Int) = max 0 ((file.length : Int) - t) ∧
      (rs : Int) = min (o + 4) file.length - no ∧
      searchPass file file.length M o t =
        (if (findZipSignature ((file.drop no).take rs)).2 then
          .exit [⟨no, rs⟩] (.found no (findZipSignature ((file.drop no).take rs)).1)
        else if t = M then .exit [⟨no, rs⟩] .notFound
        else .next ⟨no, rs⟩ no (if wrap64 (t * 2) > M then M else wrap64 (t * 2))) := by
  obtain ⟨no, hno⟩ := Int.eq_ofNat_of_zero_le (le_max_left 0 ((file.length : Int) - t))
  obtain ⟨rs, hrs⟩ := Int.eq_ofNat_of_zero_le
    (show (0 : Int) ≤ min (o + 4) file.length - max 0 ((file.length : Int) - t) by
      rcases le_total (o + 4) (file.length : Int) with h | h
      · rw [min_eq_left h]; rcases le_total 0 ((file.length : Int) - t) with h' | h'
        · rw [max_eq_right h']; omega
        · rw [max_eq_left h']; omega
      · rw [min_eq_right h]; rcases le_total 0 ((file.length : Int) - t) with h' | h'
        · rw [max_eq_right h']; omega
        · rw [max_eq_left h']; omega)
  refine ⟨no, rs, hno.symm, by rw [← hrs, hno], ?_⟩
  have hnoval : (no : Int) = max 0 ((file.length : Int) - t) := hno.symm
  have hno0 : (0 : Int) ≤ no := Int.ofNat_nonneg _
  have hnole : (no : Int) < o := by
    rw [hnoval]; exact max_lt ho hto
  have e1 : (if wrap64 ((file.length : Int) - t) < 0 then 0 else wrap64 ((file.length : Int) - t))
      = (no : Int) := by
    rw [wrap64_eq _ (by omega) (by omega), hnoval]
    by_cases h : (file.length : Int) - t < 0
    · rw [if_pos h, max_eq_left (by omega)]
    · rw [if_neg h, max_eq_right (by omega)]
  have e2 : wrap64 (wrap64 (o - no) + 4) = o - no + 4 := by
    rw [wrap64_eq (o - no) (by omega) (by omega), wrap64_eq _ (by omega) (by omega)]
  have e3 : (if wrap64 ((no : Int) + (o - no + 4)) > file.length then
      wrap64 ((file.length : Int) - no) else o - no + 4) = (rs : Int) := by
    rw [wrap64_eq _ (by omega) (by omega), wrap64_eq _ (by omega) (by omega), ← hrs, ← hnoval]
    by_cases h : (no : Int) + (o - no + 4) > file.length
    · rw [if_pos h, min_eq_right (by omega)]
    · rw [if_neg h, min_eq_left (by omega)]; omega
  have hrsle : no + rs ≤ file.length := by
    have : (rs : Int) ≤ file.length - no := by
      rw [← hrs, ← hnoval]
      have := min_le_right (o + 4) (file.length : Int)
      omega
    omega
  unfold searchPass
  simp only [e1, e2, e3]
  rw [if_neg (by omega), if_neg (by omega), readFull_ok file no rs hrsle]

theorem searchLoop_succ (file : List Byte) (n M : Int) (fuel : Nat) (o t : Int) :
    searchLoop file n M (fuel + 1) o t =
      if o > 0 then
        match searchPass file n M o t with
        | .exit reads res => some (reads, res)
        | .next rd offset targetSz =>
          match searchLoop file n M fuel offset targetSz with
          | none => none
          | some (reads, res) => some (rd :: reads, res)
      else some ([], .notFound) := rfl

/-- The search loop without overflow (`22 ≤ maxTruncate < 2^63`, file below `2^61` bytes):
entered with nothing found at or after `o`, it ends, and its result meets `SearchPost`
for the floor `max 0 (fileSz - maxTruncate)`. -/
theorem searchLoop_normal (file : List Byte) (M : Int)
    (hn : (file.length : Int) < 2 ^ 61) (hM2 : M < 2 ^ 63) :
    ∀ (fuel : Nat) (o t : Int), 0 ≤ o → o ≤ file.length → 22 ≤ t → t ≤ M →
      (file.length : Int) - t < o → (0 < o → t ≤ max (2 * (file.length : Int)) 64) →
      o < fuel →
      (∀ p : Nat, o ≤ (p : Int) → p + 4 < file.length → ¬ sigAt file p) →
      ∃ reads res, searchLoop file file.length M fuel o t = some (reads, res) ∧
        SearchPost file (max 0 ((file.length : Int) - M)) reads res := by
  intro fuel
  induction fuel with
  | zero => intro o t h0 _ _ _ _ _ hf; omega
  | succ fuel ih =>
    intro o t h0 hon ht htM hto htn hf hcov
    rw [searchLoop_succ]
    by_cases ho : o > 0
    · rw [if_pos ho]
      obtain ⟨no, rs, hno, hrs, hpass⟩ := searchPass_normal file M o t hn hM2 ho hon ht htM hto
      rw [hpass]
      have hlo : max 0 ((file.length : Int) - M) ≤ (no : Int) := by omega
      have hrsle : no + rs ≤ file.length := by omega
      have hlen : ((file.drop no).take rs).length = rs := by
        rw [List.length_take, List.length_drop]; omega
      rcases findZipSignature_spec ((file.drop no).take rs) with
        ⟨j, hj, hjl, hsj, hmin⟩ | ⟨hnf, hno'⟩
      · rw [hlen] at hjl
        rw [hj]
        refine ⟨_, _, rfl, ?_, Or.inr ⟨no, rs, j, rfl, ⟨[], rfl⟩, hlo, hrsle, hjl, ?_, ?_⟩⟩
        · intro r hr
          simp only [List.mem_singleton] at hr
          rw [hr]; exact hlo
        · exact (sigAt_window file no rs j (by omega)).1 hsj
        · intro p hp1 hp2 hsp
          refine hmin (p - no) (by omega) ((sigAt_window file no rs (p - no) (by omega)).2 ?_)
          rw [show no + (p - no) = p by omega]; exact hsp
      · rw [hlen] at hno'
        rw [hnf]
        have hcov' : ∀ p : Nat, (no : Int) ≤ (p : Int) → p + 4 < file.length → ¬ sigAt file p := by
          intro p hp1 hp2 hsp
          by_cases hpo : o ≤ (p : Int)
          · exact hcov p hpo hp2 hsp
          · refine hno' (p - no) (by omega) ((sigAt_window file no rs (p - no) (by omega)).2 ?_)
            rw [show no + (p - no) = p by omega]; exact hsp
        simp only [Bool.false_eq_true, if_false]
        by_cases htm : t = M
        · rw [if_pos htm]
          refine ⟨_, _, rfl, ?_, Or.inl ⟨rfl, ?_⟩⟩
          · intro r hr
            simp only [List.mem_singleton] at hr
            rw [hr]; exact hlo
          · intro p hp1 hp2
            exact hcov' p (by omega) hp2
        · rw [if_neg htm]
          have h2t : wrap64 (t * 2) = t * 2 := wrap64_eq _ (by omega) (by omega)
          rw [h2t]
          obtain ⟨reads, res, hloop, hpost⟩ := ih (no : Int)
            (if t * 2 > M then M else t * 2) (by omega) (by omega)
            (by split_ifs <;> omega) (by split_ifs <;> omega) (by split_ifs <;> omega)
            (by intro hpos; split_ifs <;> omega) (by omega) hcov'
          simp only [hloop]
          refine ⟨_, _, rfl, ?_, ?_⟩
          · intro r hr
            rcases List.mem_cons.1 hr with h | h
            · rw [h]; exact hlo
            · exact hpost.1 r h
          · rcases hpost.2 with h | ⟨off, len, e, h1, h2, h3⟩
            · exact Or.inl h
            · obtain ⟨pre, hpre⟩ := h2
              exact Or.inr ⟨off, len, e, h1, ⟨_ :: pre, by rw [hpre]; rfl⟩, h3⟩
    · rw [if_neg ho]
      refine ⟨_, _, rfl, by simp, Or.inl ⟨rfl, ?_⟩⟩
      intro p _ hp2
      exact hcov p (by omega) hp2

/-- The single pass made when `searchBound + 22` overflows `int64` and the file is not
shorter than the overflow: the window is the whole file. -/
theorem searchPass_overflow (file : List Byte) (sb : Int) (hn : (file.length : Int) < 2 ^ 61)
    (h1 : sb < 2 ^ 63) (h2 : 2 ^ 63 ≤ sb + 22) (hpos : 0 < file.length)
    (hk : sb + 22 ≤ (file.length : Int) + 2 ^ 63) :
    searchPass file file.length (sb + 22 - 2 ^ 64) file.length (sb + 22 - 2 ^ 64) =
      (if (findZipSignature file).2 then
        .exit [⟨0, file.length⟩] (.found 0 (findZipSignature file).1)
      else .exit [⟨0, file.length⟩] .notFound) := by
  have w1 : wrap64 ((file.length : Int) - (sb + 22 - 2 ^ 64)) =
      (file.length : Int) - (sb + 22) := by
    unfold wrap64; omega
  have w2 : wrap64 ((file.length : Int) - 0) = (file.length : Int) := by
    unfold wrap64; omega
  have w3 : wrap64 ((file.length : Int) + 4) = (file.length : Int) + 4 := by
    unfold wrap64; omega
  have w4 : wrap64 (0 + ((file.length : Int) + 4)) = (file.length : Int) + 4 := by
    unfold wrap64; omega
  have e1 : (if wrap64 ((file.length : Int) - (sb + 22 - 2 ^ 64)) < 0 then 0
      else wrap64 ((file.length : Int) - (sb + 22 - 2 ^ 64))) = (0 : Int) := by
    rw [w1, if_pos (by omega)]
  have e2 : wrap64 (wrap64 ((file.length : Int) - 0) + 4) = (file.length : Int) + 4 := by
    rw [w2, w3]
  have e3 : (if wrap64 (0 + ((file.length : Int) + 4)) > file.length then
      wrap64 ((file.length : Int) - 0) else (file.length : Int) + 4) = (file.length : Int) := by
    rw [w4, w2, if_pos (by omega)]
  have hread := readFull_ok file 0 file.length (by omega)
  simp only [List.drop_zero, List.take_length, Nat.cast_zero] at hread
  unfold searchPass
  simp only [e1, e2, e3]
  rw [if_neg (by omega), if_neg (by omega), hread]
  simp only [if_true]

/-- The pass made when `searchBound + 22` overflows `int64` and the file is shorter
than the overflow: the buffer length is negative and `make` panics. -/
theorem searchPass_panic (file : List Byte) (sb : Int)
    (h1 : sb < 2 ^ 63) (hpos : 0 < file.length)
    (hk : (file.length : Int) + 2 ^ 63 < sb + 22) :
    searchPass file file.length (sb + 22 - 2 ^ 64) file.length (sb + 22 - 2 ^ 64) =
      .exit [] .makeslicePanic := by
  have w1 : wrap64 ((file.length : Int) - (sb + 22 - 2 ^ 64)) =
      (file.length : Int) - (sb + 22 - 2 ^ 64) := by
    unfold wrap64; omega
  have e1 : (if wrap64 ((file.length : Int) - (sb + 22 - 2 ^ 64)) < 0 then 0
      else wrap64 ((file.length : Int) - (sb + 22 - 2 ^ 64))) =
      (file.length : Int) - (sb + 22 - 2 ^ 64) := by
    rw [w1, if_neg (by omega)]
  have e2 : wrap64 (wrap64 ((file.length : Int) - ((file.length : Int) - (sb + 22 - 2 ^ 64))) + 4)
      = sb + 26 - 2 ^ 64 := by
    unfold wrap64; omega
  have e3 : (if wrap64 ((file.length : Int) - (sb + 22 - 2 ^ 64) + (sb + 26 - 2 ^ 64)) >
      file.length then wrap64 ((file.length : Int) - ((file.length : Int) - (sb + 22 - 2 ^ 64)))
      else sb + 26 - 2 ^ 64) = sb + 22 - 2 ^ 64 := by
    have w3 : wrap64 ((file.length : Int) - (sb + 22 - 2 ^ 64) + (sb + 26 - 2 ^ 64)) =
        (file.length : Int) + 4 := by
      unfold wrap64; omega
    have w4 : wrap64 ((file.length : Int) - ((file.length : Int) - (sb + 22 - 2 ^ 64))) =
        sb + 22 - 2 ^ 64 := by
      unfold wrap64; omega
    rw [w3, w4, if_pos (by omega)]
  unfold searchPass
  simp only [e1, e2, e3]
  rw [if_pos (by omega)]

theorem wrap64_bound_overflow (sb : Int) (h1 : sb < 2 ^ 63) (h2 : 2 ^ 63 ≤ sb + 22) :
    wrap64 (sb + lenEOCD) = sb + 22 - 2 ^ 64 := by
  unfold wrap64 lenEOCD; omega

theorem wrap64_bound_normal (sb : Int) (h0 : 0 ≤ sb) (h2 : sb + 22 < 2 ^ 63) :
    wrap64 (sb + lenEOCD) = sb + 22 := by
  unfold wrap64 lenEOCD; omega

/-- The makeslice panic: `searchBound + 22` overflows and the file is non-empty but
shorter than `searchBound + 22 - 2^63` bytes. -/
theorem zipSearch_panic (file : List Byte) (sb : Int) (h1 : sb < 2 ^ 63)
    (hpos : 0 < file.length) (hk : (file.length : Int) + 2 ^ 63 < sb + 22) :
    zipSearch file sb = some ([], .makeslicePanic) := by
  unfold zipSearch
  simp only [wrap64_bound_overflow sb h1 (by omega)]
  rw [if_pos (by omega), searchLoop_succ, if_pos (by omega), searchPass_panic file sb h1 hpos hk]

/-- The search of `zipLength` ends and meets `SearchPost` for the floor
`max(0, fileSize - (searchBound + 22))`, outside the panic case. -/
theorem zipSearch_spec (file : List Byte) (sb : Int) (hn : file.length < 2 ^ 61)
    (h0 : 0 ≤ sb) (h1 : sb < 2 ^ 63)
    (hnp : ¬ (0 < file.length ∧ (file.length : Int) + 2 ^ 63 < sb + 22)) :
    ∃ reads res, zipSearch file sb = some (reads, res) ∧
      SearchPost file (searchFloor file sb) reads res := by
  have hn' : (file.length : Int) < 2 ^ 61 := by exact_mod_cast hn
  by_cases hov : sb + 22 < 2 ^ 63
  · unfold zipSearch searchFloor
    simp only [wrap64_bound_normal sb h0 hov]
    exact searchLoop_normal file (sb + 22) hn' hov (file.length + 1) file.length
      (if 0x40 > sb + 22 then sb + 22 else 0x40) (by omega) (le_refl _)
      (by split_ifs <;> omega) (by split_ifs <;> omega) (by split_ifs <;> omega)
      (by intro _; split_ifs <;> omega) (by push_cast; omega)
      (by intro p hp1 hp2; omega)
  · have hfloor : searchFloor file sb = 0 := by unfold searchFloor; omega
    rw [hfloor]
    unfold zipSearch
    simp only [wrap64_bound_overflow sb h1 (by omega)]
    rw [if_pos (by omega), searchLoop_succ]
    by_cases hpos : 0 < file.length
    · rw [if_pos (by omega), searchPass_overflow file sb hn' h1 (by omega) hpos (by omega)]
      rcases findZipSignature_spec file with ⟨j, hj, hjl, hsj, hmin⟩ | ⟨hnf, hno⟩
      · rw [hj]
        refine ⟨_, _, rfl, ?_, Or.inr ⟨0, file.length, j, rfl, ⟨[], rfl⟩, le_refl _, by omega,
          hjl, by rw [Nat.zero_add]; exact hsj, ?_⟩⟩
        · intro r hr
          simp only [List.mem_singleton] at hr
          rw [hr]
        · intro p _ hp2
          exact hmin p (by omega)
      · rw [hnf]
        refine ⟨_, _, rfl, ?_, Or.inl ⟨rfl, fun p _ hp2 => hno p hp2⟩⟩
        intro r hr
        simp only [Bool.false_eq_true, if_false, List.mem_singleton] at hr
        rw [hr]
    · rw [if_neg (by omega)]
      refine ⟨_, _, rfl, by simp, Or.inl ⟨rfl, fun p _ hp2 => ?_⟩⟩
      omega

/-! ## The record parser and the whole locator -/

/-- After a hit at `off + e` inside the file, `zipLength` reads the 22-byte record there
and returns `off + e + 22 + commentLength`, or the short-read error. -/
theorem zipLength_found (file : List Byte) (sb : Int) (reads : List ReadOp) (off e : Nat)
    (hn : file.length < 2 ^ 61)
    (hs : zipSearch file sb = some (reads, .found (off : Int) (e : Int)))
    (hlt : off + e < file.length) :
    zipLength file sb = some ⟨reads ++ [⟨((off + e : Nat) : Int), lenEOCD⟩],
      if off + e + 22 ≤ file.length then
        .ok ((off + e + 22 + commentLenAt file (off + e) : Nat) : Int)
      else .ioErr .unexpectedEOF⟩ := by
  have hc := commentLenAt_le file (off + e)
  have hpos : wrap64 ((off : Int) + (e : Int)) = ((off + e : Nat) : Int) := by
    rw [wrap64_eq _ (by omega) (by omega)]; push_cast; rfl
  unfold zipLength
  rw [hs]
  simp only [hpos]
  rw [if_neg (by omega)]
  by_cases h22 : off + e + 22 ≤ file.length
  · rw [if_pos h22]
    have hread := readFull_ok file (off + e) 22 h22
    have h22' : ((22 : Nat) : Int) = lenEOCD := rfl
    rw [h22'] at hread
    rw [hread]
    simp only [lenComment_window]
    have hw1 : wrap64 ((e : Int) + lenEOCD + (commentLenAt file (off + e) : Int)) =
        (e : Int) + 22 + (commentLenAt file (off + e) : Int) := by
      unfold lenEOCD
      rw [wrap64_eq _ (by omega) (by omega)]
    have hsum : (off : Int) + ((e : Int) + 22 + (commentLenAt file (off + e) : Int)) =
        ((off + e + 22 + commentLenAt file (off + e) : Nat) : Int) := by
      push_cast; ring
    rw [hw1, wrap64_eq _ (by omega) (by omega), hsum]
  · rw [if_neg h22]
    have hread := readFull_short file (off + e) 22 hlt (by omega)
    have h22' : ((22 : Nat) : Int) = lenEOCD := rfl
    rw [h22'] at hread
    rw [hread]

/-- The locator ends and meets `LocatePost`, for every file below `2^61` bytes and every
`int64` search bound `≥ 0`, outside the panic case. -/
theorem zipLength_spec (file : List Byte) (sb : Int) (hn : file.length < 2 ^ 61)
    (h0 : 0 ≤ sb) (h1 : sb < 2 ^ 63)
    (hnp : ¬ (0 < file.length ∧ (file.length : Int) + 2 ^ 63 < sb + 22)) :
    ∃ run, zipLength file sb = some run ∧ LocatePost file sb run := by
  obtain ⟨reads, res, hs, hreads, hres⟩ := zipSearch_spec file sb hn h0 h1 hnp
  rcases hres with ⟨hres, hno⟩ | ⟨off, len, e, hres, hmem, hlo, hlen, he, hsig, hmin⟩
  · refine ⟨⟨reads, .errNoZIP⟩, ?_, hreads, Or.inl ⟨rfl, hno⟩⟩
    unfold zipLength
    rw [hs, hres]
  · rw [hres] at hs
    have hfound := zipLength_found file sb reads off e hn hs (by omega)
    refine ⟨_, hfound, ?_, Or.inr ⟨off, len, off + e, ?_, hlo, by omega, by omega, hlen, hsig, hmin, ?_⟩⟩
    · intro r hr
      rcases List.mem_append.1 hr with h | h
      · exact hreads r h
      · simp only [List.mem_singleton] at h
        rw [h]
        show searchFloor file sb ≤ ((off + e : Nat) : Int)
        omega
    · obtain ⟨pre, hpre⟩ := hmem
      exact ⟨pre, by rw [hpre, List.append_assoc]; rfl⟩
    · by_cases h22 : off + e + 22 ≤ file.length
      · right
        refine ⟨h22, ?_⟩
        show (if off + e + 22 ≤ file.length then _ else _) = _
        rw [if_pos h22]
      · left
        refine ⟨by omega, ?_⟩
        show (if off + e + 22 ≤ file.length then _ else _) = _
        rw [if_neg h22]

/-- In the panic case no read is issued and the call does not return. -/
theorem zipLength_panic (file : List Byte) (sb : Int) (h1 : sb < 2 ^ 63)
    (hpos : 0 < file.length) (hk : (file.length : Int) + 2 ^ 63 < sb + 22) :
    zipLength file sb = some ⟨[], .makeslicePanic⟩ := by
  unfold zipLength
  rw [zipSearch_panic file sb h1 hpos hk]

theorem sigAt_append_left (a g : List Byte) (p : Nat) (h : p + 4 ≤ a.length) :
    sigAt (a ++ g) p ↔ sigAt a p := by
  unfold sigAt
  rw [List.getElem?_append_left (by omega), List.getElem?_append_left (by omega),
    List.getElem?_append_left (by omega), List.getElem?_append_left (by omega)]

theorem commentLenAt_append_left (a g : List Byte) (s : Nat) (h : s + 22 ≤ a.length) :
    commentLenAt (a ++ g) s = commentLenAt a s := by
  unfold commentLenAt
  simp only [List.getD_eq_getElem?_getD]
  rw [List.getElem?_append_left (by omega), List.getElem?_append_left (by omega)]

theorem commentLenAt_take (file : List Byte) (z s : Nat) (h : s + 22 ≤ z) :
    commentLenAt (file.take z) s = commentLenAt file s := by
  unfold commentLenAt
  simp only [List.getD_eq_getElem?_getD]
  rw [List.getElem?_take_of_lt (by omega), List.getElem?_take_of_lt (by omega)]

/-- A call that returns an offset matched a signature whose 22-byte record lies in the file. -/
theorem zipLength_ok_inv (file : List Byte) (sb : Int) (hn : file.length < 2 ^ 61)
    (h0 : 0 ≤ sb) (h1 : sb < 2 ^ 63) (run : Run) (z : Int)
    (h : zipLength file sb = some run) (hz : run.out = .ok z) :
    (∀ r ∈ run.reads, searchFloor file sb ≤ r.off) ∧
    ∃ off len s : Nat,
      (∃ pre, run.reads = pre ++ [(⟨off, len⟩ : ReadOp), ⟨(s : Int), lenEOCD⟩]) ∧
      searchFloor file sb ≤ (off : Int) ∧ off ≤ s ∧ s + 4 < off + len ∧
      off + len ≤ file.length ∧ sigAt file s ∧ (∀ p : Nat, off ≤ p → p < s → ¬ sigAt file p) ∧
      s + 22 ≤ file.length ∧ z = ((s + 22 + commentLenAt file s : Nat) : Int) := by
  by_cases hnp : 0 < file.length ∧ (file.length : Int) + 2 ^ 63 < sb + 22
  · rw [zipLength_panic file sb h1 hnp.1 hnp.2] at h
    cases h
    cases hz
  · obtain ⟨run', hrun', hreads, hpost⟩ := zipLength_spec file sb hn h0 h1 hnp
    rw [h] at hrun'
    cases hrun'
    refine ⟨hreads, ?_⟩
    rcases hpost with ⟨herr, _⟩ | ⟨off, len, s, hmem, hlo, hos, hs4, hlen, hsig, hmin, hout⟩
    · rw [hz] at herr; cases herr
    · rcases hout with ⟨_, herr⟩ | ⟨h22, hok⟩
      · rw [hz] at herr; cases herr
      · rw [hz] at hok
        exact ⟨off, len, s, hmem, hlo, hos, hs4, hlen, hsig, hmin, h22, Outcome.ok.inj hok⟩

/-- Outside the panic case (a non-empty file shorter than `searchBound + 22 - 2^63`
bytes), a file with no signature at or after the search floor yields `ErrNoZIP`. -/
theorem zipLength_errNoZIP_of_no_signature (file : List Byte) (sb : Int)
    (hn : file.length < 2 ^ 61) (h0 : 0 ≤ sb) (h1 : sb < 2 ^ 63)
    (hnp : ¬ (0 < file.length ∧ (file.length : Int) + 2 ^ 63 < sb + 22))
    (hno : ∀ p : Nat, searchFloor file sb ≤ (p : Int) → ¬ sigAt file p) :
    ∃ reads, zipLength file sb = some ⟨reads, .errNoZIP⟩ := by
  obtain ⟨run, hrun, _, hpost⟩ := zipLength_spec file sb hn h0 h1 hnp
  rcases hpost with ⟨herr, _⟩ | ⟨off, len, s, _, hlo, hos, _, _, hs, _, _⟩
  · refine ⟨run.reads, ?_⟩
    rw [hrun, ← herr]
  · exact absurd hs (hno s (by omega))

/-- Cutting a file at a returned offset `z ≤ len(file)`: when the signature stands only
once at the offsets `≥ max(0, z - (searchBound + 22))` of the first `z` bytes, `zipLength`
returns `z` again on the cut file. -/
theorem zipLength_take_fixed (B : List Byte) (sb : Int) (reads : List ReadOp) (z : Nat)
    (hn : B.length < 2 ^ 61) (h0 : 0 ≤ sb) (h1 : sb < 2 ^ 63)
    (hz : zipLength B sb = some ⟨reads, .ok (z : Int)⟩) (hle : z ≤ B.length)
    (huniq : ∀ p q : Nat, max 0 ((z : Int) - (sb + 22)) ≤ (p : Int) →
      max 0 ((z : Int) - (sb + 22)) ≤ (q : Int) →
      sigAt (B.take z) p → sigAt (B.take z) q → p = q) :
    ∃ reads', zipLength (B.take z) sb = some ⟨reads', .ok (z : Int)⟩ := by
  obtain ⟨_, off, len, s, _, hlo, hos, _, _, hsig, _, h22, hzv⟩ :=
    zipLength_ok_inv B sb hn h0 h1 ⟨reads, .ok (z : Int)⟩ z hz rfl
  have hzs : z = s + 22 + commentLenAt B s := by exact_mod_cast hzv
  have hlen : (B.take z).length = z := by rw [List.length_take]; omega
  have hsT : sigAt (B.take z) s := (sigAt_take B z s (by omega)).2 hsig
  have hfloor : searchFloor (B.take z) sb = max 0 ((z : Int) - (sb + 22)) := by
    unfold searchFloor; rw [hlen]
  have hsfloor : max 0 ((z : Int) - (sb + 22)) ≤ (s : Int) := by
    unfold searchFloor at hlo
    omega
  obtain ⟨run, hrun, _, hpost⟩ := zipLength_spec (B.take z) sb (by omega) h0 h1 (by omega)
  rcases hpost with ⟨_, hno⟩ | ⟨off', len', s', _, hlo', hos', _, _, hs', _, hout⟩
  · exact absurd hsT (hno s (by rw [hfloor]; exact hsfloor) (by omega))
  · have hs'floor : max 0 ((z : Int) - (sb + 22)) ≤ (s' : Int) := by
      rw [hfloor] at hlo'
      omega
    have hss := huniq s' s hs'floor hsfloor hs' hsT
    subst hss
    rcases hout with ⟨hlt, _⟩ | ⟨_, hok⟩
    · omega
    · refine ⟨run.reads, ?_⟩
      rw [hrun]
      rw [commentLenAt_take B z s' (by omega), ← hzs] at hok
      rw [← hok]

/-- A returned offset satisfies `0 ≤ offset ≤ fileSize + c`, where `c ≤ 65535` is the
comment length of the matched record; the record itself lies inside the file. -/
theorem zipLength_ok_le_fileSize_add_comment (file : List Byte) (sb : Int)
    (hn : file.length < 2 ^ 61) (h0 : 0 ≤ sb) (h1 : sb < 2 ^ 63) (run : Run) (z : Int)
    (h : zipLength file sb = some run) (hz : run.out = .ok z) :
    ∃ s : Nat, sigAt file s ∧ s + 22 ≤ file.length ∧
      z = (s : Int) + 22 + (commentLenAt file s : Int) ∧
      0 ≤ z ∧ z ≤ (file.length : Int) + (commentLenAt file s : Int) ∧
      z ≤ (file.length : Int) + 65535 := by
  obtain ⟨_, off, len, s, _, _, _, _, _, hsig, _, h22, hzv⟩ :=
    zipLength_ok_inv file sb hn h0 h1 run z h hz
  have hc := commentLenAt_le file s
  refine ⟨s, hsig, h22, ?_, ?_, ?_, ?_⟩ <;> rw [hzv] <;> push_cast <;> omega

/-! ## The claims -/

/-- C1: a file whose last 22 bytes are an end-of-central-directory record with comment
length 0, the signature occurring nowhere else, is reported at its full size, without
error, for every search bound `≥ 0`. -/
theorem C1_wellformed_archive_full_size (file : List Byte) (sb : Int)
    (hn : file.length < 2 ^ 61) (h0 : 0 ≤ sb) (h1 : sb < 2 ^ 63)
    (hlen : 22 ≤ file.length) (hsig : sigAt file (file.length - 22))
    (hc : commentLenAt file (file.length - 22) = 0)
    (huniq : ∀ p, sigAt file p → p = file.length - 22) :
    ∃ reads, zipLength file sb = some ⟨reads, .ok (file.length : Int)⟩ := by
  obtain ⟨run, hrun, _, hpost⟩ := zipLength_spec file sb hn h0 h1 (by omega)
  rcases hpost with ⟨_, hno⟩ | ⟨off, len, s, _, _, _, _, _, hs, _, hout⟩
  · exact absurd hsig (hno (file.length - 22) (by unfold searchFloor; omega) (by omega))
  · have hs' := huniq s hs
    rcases hout with ⟨hlt, _⟩ | ⟨_, hok⟩
    · omega
    · refine ⟨run.reads, ?_⟩
      rw [hrun]
      have hval : ((s + 22 + commentLenAt file s : Nat) : Int) = (file.length : Int) := by
        rw [hs', hc]; omega
      rw [hval] at hok
      rw [← hok]

set_option maxRecDepth 100000 in
/-- Instance of C1 on a bare 22-byte record, with the 4 MiB bound of the fixture tests. -/
theorem C1_witness :
    ∃ reads, zipLength (eocdRecord 0 0) 4194304 =
      some ⟨reads, .ok ((eocdRecord 0 0).length : Int)⟩ :=
  C1_wellformed_archive_full_size (eocdRecord 0 0) 4194304 (by decide) (by decide) (by decide)
    (by decide) (by decide) (by decide)
    (by
      intro p hp
      have hb : p + 4 ≤ 22 := sigAt_lt_length _ p hp
      have hp19 : p < 19 := by omega
      interval_cases p <;> first | rfl | exact absurd hp (by decide))

set_option maxRecDepth 100000 in
/-- C2 fails as stated: a valid 23-byte archive (record plus one comment byte), nothing
appended (`N = 0 ≤ searchBound = 0`), the signature occurring once: the record starts
23 bytes from the end, outside the 22-byte search range, and the result is `ErrNoZIP`. -/
theorem C2_counterexample :
    sigAt archiveWithComment 0 ∧
      archiveWithComment.length = 0 + 22 + commentLenAt archiveWithComment 0 ∧
      (∀ p, sigAt (archiveWithComment ++ []) p → p = 0) ∧
      ((([] : List Byte).length : Int) ≤ 0) ∧
      zipLength (archiveWithComment ++ []) 0 = some ⟨[⟨1, 22⟩], .errNoZIP⟩ := by
  refine ⟨by decide, by decide, ?_, by decide, by decide⟩
  intro p hp
  have hb : p + 4 ≤ 23 := sigAt_lt_length _ p hp
  have hp20 : p < 20 := by omega
  interval_cases p <;> first | rfl | exact absurd hp (by decide)

/-- C2 (as amended): for an archive `A` ending in its record at offset `s` and the comment
the record announces, and `N` appended bytes `G`, the signature standing nowhere else in
`A ++ G`: if `N + commentLength ≤ searchBound` then `zipLength` returns `len(A)`. -/
theorem C2_appended_bytes_within_bound (A G : List Byte) (sb : Int) (s : Nat)
    (hn : (A ++ G).length < 2 ^ 61) (h0 : 0 ≤ sb) (h1 : sb < 2 ^ 63)
    (hs : sigAt A s) (hA : A.length = s + 22 + commentLenAt A s)
    (huniq : ∀ p, sigAt (A ++ G) p → p = s)
    (hN : (G.length : Int) + (commentLenAt A s : Int) ≤ sb) :
    ∃ reads, zipLength (A ++ G) sb = some ⟨reads, .ok (A.length : Int)⟩ := by
  have hlen : (A ++ G).length = A.length + G.length := List.length_append A G
  have hsAG : sigAt (A ++ G) s := (sigAt_append_left A G s (by omega)).2 hs
  obtain ⟨run, hrun, _, hpost⟩ := zipLength_spec (A ++ G) sb hn h0 h1 (by omega)
  rcases hpost with ⟨_, hno⟩ | ⟨off, len, s', _, _, _, _, _, hs', _, hout⟩
  · exact absurd hsAG (hno s (by unfold searchFloor; omega) (by omega))
  · have hss := huniq s' hs'
    subst hss
    rcases hout with ⟨hlt, _⟩ | ⟨_, hok⟩
    · omega
    · refine ⟨run.reads, ?_⟩
      rw [hrun]
      rw [commentLenAt_append_left A G s' (by omega), ← hA] at hok
      rw [← hok]

set_option maxRecDepth 100000 in
/-- Instance of the amended C2: the 23-byte archive with four bytes appended, bound 5. -/
theorem C2_witness :
    ∃ reads, zipLength (archiveWithComment ++ [1, 1, 1, 1]) 5 =
      some ⟨reads, .ok (archiveWithComment.length : Int)⟩ :=
  C2_appended_bytes_within_bound archiveWithComment [1, 1, 1, 1] 5 0 (by decide) (by decide)
    (by decide) (by decide) (by decide)
    (by
      intro p hp
      have hb : p + 4 ≤ 27 := sigAt_lt_length _ p hp
      have hp24 : p < 24 := by omega
      interval_cases p <;> first | rfl | exact absurd hp (by decide))
    (by decide)

/-- C3: a returned offset is `s + 22 + c`, with `s` the offset of the matched signature,
the lowest at which the signature stands in the buffer `(off, len)` of the last window
read (the attempt that found it; the 22-byte record read at `s` follows it), and `c` the
little-endian 16-bit value of bytes `s+20`, `s+21` (`0 ≤ c ≤ 65535`). -/
theorem C3_offset_is_signature_plus_record_plus_comment (file : List Byte) (sb : Int)
    (hn : file.length < 2 ^ 61) (h0 : 0 ≤ sb) (h1 : sb < 2 ^ 63) (run : Run) (z : Int)
    (h : zipLength file sb = some run) (hz : run.out = .ok z) :
    ∃ (pre : List ReadOp) (off len s : Nat),
      run.reads = pre ++ [(⟨off, len⟩ : ReadOp), ⟨(s : Int), 22⟩] ∧ off ≤ s ∧
      s + 4 ≤ off + len ∧ sigAt file s ∧
      (∀ p : Nat, off ≤ p → p + 4 ≤ off + len → sigAt file p → s ≤ p) ∧
      commentLenAt file s ≤ 65535 ∧
      z = (s : Int) + 22 + (commentLenAt file s : Int) := by
  obtain ⟨_, off, len, s, ⟨pre, hpre⟩, _, hos, hs4, _, hsig, hmin, _, hzv⟩ :=
    zipLength_ok_inv file sb hn h0 h1 run z h hz
  refine ⟨pre, off, len, s, hpre, hos, by omega, hsig, ?_, commentLenAt_le file s, ?_⟩
  · intro p hp _ hsp
    by_contra hlt
    exact hmin p hp (by omega) hsp
  · rw [hzv]; push_cast; ring

set_option maxRecDepth 100000 in
/-- Instance of C3 at the largest comment length, 65535. -/
theorem C3_witness :
    ∃ (pre : List ReadOp) (off len s : Nat),
      [(⟨0, 22⟩ : ReadOp), ⟨0, 22⟩] = pre ++ [(⟨off, len⟩ : ReadOp), ⟨(s : Int), 22⟩] ∧ off ≤ s ∧
      s + 4 ≤ off + len ∧ sigAt (eocdRecord 0xFF 0xFF) s ∧
      (∀ p : Nat, off ≤ p → p + 4 ≤ off + len → sigAt (eocdRecord 0xFF 0xFF) p → s ≤ p) ∧
      commentLenAt (eocdRecord 0xFF 0xFF) s ≤ 65535 ∧
      (65557 : Int) = (s : Int) + 22 + (commentLenAt (eocdRecord 0xFF 0xFF) s : Int) :=
  C3_offset_is_signature_plus_record_plus_comment (eocdRecord 0xFF 0xFF) 0 (by decide)
    (by decide) (by decide) ⟨[⟨0, 22⟩, ⟨0, 22⟩], .ok 65557⟩ 65557 (by decide) rfl

set_option maxRecDepth 100000 in
/-- C4, at the failing input: a 22-byte file holding a record that announces a one-byte
comment, with no comment byte and no garbage, is reported at offset 23, beyond its end;
an unforced truncate then writes a backup and grows the file to 23 bytes. -/
theorem C4_offset_beyond_file_end :
    zipLength (eocdRecord 1 0) 0 = some ⟨[⟨0, 22⟩, ⟨0, 22⟩], .ok 23⟩ ∧
      ¬ ((23 : Int) ≤ ((eocdRecord 1 0).length : Int)) ∧
      doTruncateZip false false 0 ⟨eocdRecord 1 0, none⟩ =
        some (.done ⟨eocdRecord 1 0 ++ [0], some (eocdRecord 1 0)⟩) := by
  decide

set_option maxRecDepth 100000 in
/-- C5, at the failing input: a one-byte file holds no signature at all, and with
`searchBound = 2^63 - 1` the call ends in the makeslice panic, not in `ErrNoZIP`. -/
theorem C5_panic_at_largest_bound :
    (∀ p, ¬ sigAt [0] p) ∧
      zipLength [0] 9223372036854775807 = some ⟨[], .makeslicePanic⟩ := by
  refine ⟨?_, by decide⟩
  intro p hp
  have hb : p + 4 ≤ 1 := sigAt_lt_length _ p hp
  omega

set_option maxRecDepth 100000 in
/-- C6, at the failing input: on the 4-byte buffer `PK\x05\x06` the signature stands at
index `0 = len(b) - 4`, and `findZipSignature` reports not-found. -/
theorem C6_signature_at_last_position_missed :
    sigAt [0x50, 0x4B, 0x05, 0x06] 0 ∧
      findZipSignature [0x50, 0x4B, 0x05, 0x06] = (-1, false) := by
  decide

set_option maxRecDepth 100000 in
/-- C7 fails as stated: on a 30-byte file (stray signature, record, four garbage bytes)
with bound 4, the first call returns 26 ≤ 30, and on the first 26 bytes the call returns
22, not 26; an unforced truncate without backup then cuts the file a second time. -/
theorem C7_counterexample :
    zipLength strayThenRecord 4 = some ⟨[⟨4, 26⟩, ⟨4, 22⟩], .ok 26⟩ ∧
      (26 : Int) ≤ (strayThenRecord.length : Int) ∧
      zipLength (strayThenRecord.take 26) 4 = some ⟨[⟨0, 26⟩, ⟨0, 22⟩], .ok 22⟩ ∧
      doTruncateZip false true 4 ⟨strayThenRecord, none⟩ =
        some (.done ⟨strayThenRecord.take 26, none⟩) ∧
      doTruncateZip false true 4 ⟨strayThenRecord.take 26, none⟩ =
        some (.done ⟨strayThenRecord.take 22, none⟩) := by
  decide

/-- C7 (as amended): when an unforced truncate of `B` succeeds with
`z = zipLength(B, searchBound) ≤ len(B)` and the signature stands only once at the offsets
`≥ max(0, z - (searchBound + 22))` of `B[0..z)`, the file left behind is `B[0..z)`,
`zipLength` returns `z` on it, and a second unforced truncate changes neither the file
nor the backup. -/
theorem C7_truncate_twice_single_signature_in_range (B : List Byte) (sb : Int)
    (nobackup : Bool) (bk : Option (List Byte)) (reads : List ReadOp) (z : Nat) (d1 : Disk)
    (hn : B.length < 2 ^ 61) (h0 : 0 ≤ sb) (h1 : sb < 2 ^ 63)
    (hz : zipLength B sb = some ⟨reads, .ok (z : Int)⟩) (hle : z ≤ B.length)
    (hfirst : doTruncateZip false nobackup sb ⟨B, bk⟩ = some (.done d1))
    (huniq : ∀ p q : Nat, max 0 ((z : Int) - (sb + 22)) ≤ (p : Int) →
      max 0 ((z : Int) - (sb + 22)) ≤ (q : Int) →
      sigAt (B.take z) p → sigAt (B.take z) q → p = q) :
    d1.file = B.take z ∧ (∃ reads', zipLength d1.file sb = some ⟨reads', .ok (z : Int)⟩) ∧
      doTruncateZip false nobackup sb d1 = some (.done d1) := by
  obtain ⟨reads', hz'⟩ := zipLength_take_fixed B sb reads z hn h0 h1 hz hle huniq
  have hlen : (B.take z).length = z := by rw [List.length_take]; omega
  have hfile : d1.file = B.take z := by
    unfold doTruncateZip at hfirst
    simp only [hz] at hfirst
    by_cases hzl : (B.length : Int) = (z : Int)
    · have hzl' : B.length = z := by exact_mod_cast hzl
      simp only [hzl, Bool.false_eq_true, not_false_eq_true, and_self, if_true,
        Option.some.injEq, Action.done.injEq] at hfirst
      rw [← hfirst, ← hzl', List.take_length]
    · have hneg : ¬ ((z : Int) < 0) := by omega
      cases nobackup <;> cases bk <;>
        simp [hzl, hneg, osTruncate, Nat.sub_eq_zero_of_le hle] at hfirst <;>
        rw [← hfirst]
  refine ⟨hfile, ⟨reads', by rw [hfile]; exact hz'⟩, ?_⟩
  have hd1 : zipLength d1.file sb = some ⟨reads', .ok (z : Int)⟩ := by rw [hfile]; exact hz'
  have hd1len : (d1.file.length : Int) = (z : Int) := by rw [hfile, hlen]
  unfold doTruncateZip
  simp only [hd1, hd1len, Bool.false_eq_true, not_false_eq_true, and_self, if_true]

set_option maxRecDepth 100000 in
/-- Instance of the amended C7 with a second signature outside the range: a stray
signature at offset 0, the record at offset 104, four garbage bytes, bound 4, with backup;
the first truncate leaves the first 126 bytes and a backup of the original. -/
theorem C7_witness :
    (⟨farStrayThenRecord.take 126, some farStrayThenRecord⟩ : Disk).file =
        farStrayThenRecord.take 126 ∧
      (∃ reads', zipLength (⟨farStrayThenRecord.take 126, some farStrayThenRecord⟩ : Disk).file 4 =
        some ⟨reads', .ok ((126 : Nat) : Int)⟩) ∧
      doTruncateZip false false 4 ⟨farStrayThenRecord.take 126, some farStrayThenRecord⟩ =
        some (.done ⟨farStrayThenRecord.take 126, some farStrayThenRecord⟩) :=
  C7_truncate_twice_single_signature_in_range farStrayThenRecord 4 false none
    [⟨104, 26⟩, ⟨104, 22⟩] 126
    ⟨farStrayThenRecord.take 126, some farStrayThenRecord⟩ (by decide) (by decide) (by decide)
    (by decide) (by decide) (by decide)
    (by
      intro p q hp hq hsp hsq
      have hbp : p + 4 ≤ 126 := sigAt_lt_length _ p hsp
      have hbq : q + 4 ≤ 126 := sigAt_lt_length _ q hsq
      have hp104 : p = 104 := by
        have hp1 : 100 ≤ p := by omega
        have hp2 : p < 123 := by omega
        interval_cases p <;> first | rfl | exact absurd hsp (by decide)
      have hq104 : q = 104 := by
        have hq1 : 100 ≤ q := by omega
        have hq2 : q < 123 := by omega
        interval_cases q <;> first | rfl | exact absurd hsq (by decide)
      rw [hp104, hq104])

/-- C8: every read of a call, the window reads and the record read alike, starts at an
offset `≥ max(0, fileSize - (searchBound + 22))`. -/
theorem C8_reads_start_within_search_range (file : List Byte) (sb : Int)
    (hn : file.length < 2 ^ 61) (h0 : 0 ≤ sb) (h1 : sb < 2 ^ 63) :
    ∃ run, zipLength file sb = some run ∧
      ∀ r ∈ run.reads, max 0 ((file.length : Int) - (sb + 22)) ≤ r.off := by
  by_cases hnp : 0 < file.length ∧ (file.length : Int) + 2 ^ 63 < sb + 22
  · exact ⟨_, zipLength_panic file sb h1 hnp.1 hnp.2, by simp⟩
  · obtain ⟨run, hrun, hreads, _⟩ := zipLength_spec file sb hn h0 h1 hnp
    exact ⟨run, hrun, hreads⟩

set_option maxRecDepth 100000 in
/-- Instance of C8 on an 86-byte file searched in two windows, bound 100. -/
theorem C8_witness :
    ∃ run, zipLength straddling 100 = some run ∧
      ∀ r ∈ run.reads, max 0 ((straddling.length : Int) - (100 + 22)) ≤ r.off :=
  C8_reads_start_within_search_range straddling 100 (by decide) (by decide) (by decide)

/-- C9: when the signature matched by the search stands at an offset `s = offset + eocd`
with `fileSize - s < 22`, `zipLength` fails with the short-read error of `io.ReadFull`. -/
theorem C9_short_record_is_io_error (file : List Byte) (sb : Int)
    (hn : file.length < 2 ^ 61) (h0 : 0 ≤ sb) (h1 : sb < 2 ^ 63)
    (reads : List ReadOp) (offset eocd : Int)
    (hs : zipSearch file sb = some (reads, .found offset eocd))
    (hshort : (file.length : Int) - (offset + eocd) < 22) :
    ∃ reads', zipLength file sb = some ⟨reads', .ioErr .unexpectedEOF⟩ := by
  by_cases hnp : 0 < file.length ∧ (file.length : Int) + 2 ^ 63 < sb + 22
  · rw [zipSearch_panic file sb h1 hnp.1 hnp.2] at hs
    cases hs
  · obtain ⟨reads0, res, hs0, _, hres⟩ := zipSearch_spec file sb hn h0 h1 hnp
    rw [hs] at hs0
    cases hs0
    rcases hres with ⟨hres, _⟩ | ⟨off, len, e, hres, _, _, hlen, he, _, _⟩
    · cases hres
    · cases hres
      have hfound := zipLength_found file sb reads off e hn hs (by omega)
      rw [if_neg (by omega)] at hfound
      exact ⟨_, hfound⟩

set_option maxRecDepth 100000 in
/-- Instance of C9: a signature five bytes before the end of the file. -/
theorem C9_witness : ∃ reads', zipLength cutRecord 0 = some ⟨reads', .ioErr .unexpectedEOF⟩ :=
  C9_short_record_is_io_error cutRecord 0 (by decide) (by decide) (by decide)
    [⟨0, 5⟩] 0 0 (by decide) (by decide)

/-- C10: if the signature stands at an offset `s` with
`max(0, fileSize - (searchBound + 22)) ≤ s ≤ fileSize - 22`, the call ends with a matched
signature: it returns an offset or the short-read error, never `ErrNoZIP`. -/
theorem C10_signature_in_range_is_found (file : List Byte) (sb : Int)
    (hn : file.length < 2 ^ 61) (h0 : 0 ≤ sb) (h1 : sb < 2 ^ 63) (s : Nat)
    (hs : sigAt file s) (hlo : max 0 ((file.length : Int) - (sb + 22)) ≤ (s : Int))
    (hhi : s + 22 ≤ file.length) :
    ∃ run, zipLength file sb = some run ∧ run.out ≠ .errNoZIP ∧
      ((∃ z, run.out = .ok z) ∨ run.out = .ioErr .unexpectedEOF) := by
  obtain ⟨run, hrun, _, hpost⟩ := zipLength_spec file sb hn h0 h1 (by omega)
  rcases hpost with ⟨_, hno⟩ | ⟨off, len, s', _, _, _, _, _, _, _, hout⟩
  · exact absurd hs (hno s hlo (by omega))
  · rcases hout with ⟨_, herr⟩ | ⟨_, hok⟩
    · exact ⟨run, hrun, by rw [herr]; simp, Or.inr herr⟩
    · exact ⟨run, hrun, by rw [hok]; simp, Or.inl ⟨_, hok⟩⟩

set_option maxRecDepth 100000 in
/-- Instance of C10: the signature at offset 20 of an 86-byte file straddles the edge of
the first window, which starts at offset 22. -/
theorem C10_witness :
    ∃ run, zipLength straddling 100 = some run ∧ run.out ≠ .errNoZIP ∧
      ((∃ z, run.out = .ok z) ∨ run.out = .ioErr .unexpectedEOF) :=
  C10_signature_in_range_is_found straddling 100 (by decide) (by decide) (by decide) 20
    (by decide) (by decide) (by decide)

end ZipStrip
